import Mathlib

/-!
Verification of the core logic of `bitscore-vs-identity.py`
(VirologyCharite/diamond-sensitivity).

The development shallowly embeds the script:

* the sequence generator inside `sampleBitScore` (random subject, shuffled
  index prefix, redraw-until-different mutation, Hamming sanity check);
* the oracle-output handling of `sampleBitScore` (first candidate selected,
  assertion that it is maximal, `0.0` as the miss sentinel);
* the sampling loop of `plot` (per-level iteration with timeout retry,
  match/miss counters, stacked miss values, success-rate series, axis bounds);
* the grid placement in `main` (row-major placement, trailing cells blanked).

Randomness and the external DIAMOND process are modelled as explicit inputs:
the random draws become list parameters, and the stream of oracle outcomes
becomes a list of `TrialResult` values.  Loops that wait on those inputs
return `Option`, with `none` meaning the input stream was exhausted.
-/

/-! ## Sequence generator (`sampleBitScore`, lines 97-115) -/

/-- One replacement draw: keep drawing from the stream until a residue
different from `existing` appears (the `while newAA == existingAA` loop);
`none` when the draw stream is exhausted. -/
def redraw {α : Type} [DecidableEq α] (existing : α) : List α → Option α
  | [] => none
  | d :: ds => if d = existing then redraw existing ds else some d

/-- The mutation loop of `sampleBitScore`: for each selected index, read the
residue of the subject at that index, redraw a different residue, and write it
into the query, which starts as a copy of the subject. -/
def mutateQuery {α : Type} [DecidableEq α] (subject : List α) :
    List α → List Nat → List (List α) → Option (List α)
  | qs, [], _ => some qs
  | _, _ :: _, [] => none
  | qs, idx :: idxs, d :: ds =>
    match subject.get? idx with
    | none => none
    | some existing =>
      match redraw existing d with
      | none => none
      | some a => mutateQuery subject (qs.set idx a) idxs ds

/-- Residue-level query generation for one trial: the changed indices are the
prefix of length `errorCount` of a shuffled index range (`perm`), and each
selected index receives a redraw from its own draw stream. -/
def generateQuery {α : Type} [DecidableEq α] (subject : List α) (perm : List Nat)
    (errorCount : Nat) (draws : List (List α)) : Option (List α) :=
  mutateQuery subject subject (perm.take errorCount) draws

/-- The sanity-check count of `sampleBitScore`, line 115:
`sum(a != b for (a, b) in zip(queryAa, subject.sequence))`. -/
def hammingCount {α : Type} [DecidableEq α] (query subject : List α) : Nat :=
  (query.zip subject).countP fun p => decide ¬ p.1 = p.2

/-! ## Oracle output handling (`sampleBitScore`, lines 146-153) -/

/-- Selection of the returned bitscore from the oracle candidates: an empty
candidate list yields the miss sentinel `0.0`; otherwise the first candidate
is taken and asserted to be maximal among the rest.  `none` models the
assertion firing. -/
def adapterScore (candidates : List ℚ) : Option ℚ :=
  match candidates with
  | [] => some 0
  | b :: rest => if ∀ c ∈ rest, c ≤ b then some b else none

/-! ## Sampler (`plot`, lines 196-248) -/

/-- The outcome of one call of `sampleBitScore` as seen by the loop in `plot`:
either the subprocess timeout exception, or a returned score. -/
inductive TrialResult where
  | timeout : TrialResult
  | score : ℚ → TrialResult
deriving DecidableEq

/-- Scale constant for stacked miss values (`zeroBitscoreScale = 2`). -/
def zeroBitscoreScale : ℚ := 2

/-- Dot color used for trials where the oracle reported a match. -/
def matchColor : String := "steelblue"

/-- Dot color used for trials where the oracle reported no match. -/
def missColor : String := "tomato"

/-- The accumulator of the sampling loop in `plot`: the three parallel output
lists and the two per-level counters. -/
structure SamplerState where
  errorCounts : List Nat
  bitscores : List ℚ
  color : List String
  successCounts : Nat → Nat
  missCounts : Nat → Nat

/-- The state before the sweep: empty lists and all-zero counters. -/
def initState : SamplerState :=
  { errorCounts := [], bitscores := [], color := [], successCounts := fun _ => 0,
    missCounts := fun _ => 0 }

/-- Recording of one successful trial (lines 227-235): a zero score is a miss,
stacked at `-missCounts[errorCount] * zeroBitscoreScale` after incrementing the
miss counter; a nonzero score is appended as is and counted as a success. -/
def recordTrial (errorCount : Nat) (st : SamplerState) (score : ℚ) : SamplerState :=
  if score = 0 then
    { st with
      missCounts := fun x => if x = errorCount then st.missCounts errorCount + 1 else st.missCounts x,
      bitscores := st.bitscores ++ [-((st.missCounts errorCount + 1 : Nat) : ℚ) * zeroBitscoreScale],
      color := st.color ++ [missColor] }
  else
    { st with
      bitscores := st.bitscores ++ [score],
      color := st.color ++ [matchColor],
      successCounts := fun x => if x = errorCount then st.successCounts errorCount + 1 else st.successCounts x }

/-- The inner `while iteration < iterations` loop of `plot` for one mismatch
level, counting down the remaining iterations.  A timeout consumes a stream
element without touching the state or the remaining-iteration count; a score
is recorded and decrements the remaining count.  `none` models a run whose
outcome stream is exhausted before enough successful trials happen. -/
def runLevel (errorCount : Nat) : Nat → SamplerState → List TrialResult →
    Option (SamplerState × List TrialResult)
  | 0, st, stream => some (st, stream)
  | _ + 1, _, [] => none
  | n + 1, st, TrialResult.timeout :: rest => runLevel errorCount (n + 1) st rest
  | n + 1, st, TrialResult.score q :: rest =>
    runLevel errorCount n (recordTrial errorCount st q) rest

/-- The outer `for errorCount in range(0, length, errorIncrement)` loop of
`plot`: each level runs `iterations` successful trials and then extends
`errorCounts` by `iterations` copies of the level. -/
def runSweep (iterations : Nat) : List Nat → SamplerState → List TrialResult →
    Option (SamplerState × List TrialResult)
  | [], st, stream => some (st, stream)
  | e :: levels, st, stream =>
    match runLevel e iterations st stream with
    | none => none
    | some (st1, stream1) =>
      runSweep iterations levels
        { st1 with errorCounts := st1.errorCounts ++ List.replicate iterations e } stream1

/-- Fuel-based embedding of the Python expression `range(start, stop, step)`
for a positive step; the fuel `stop - start` suffices for every positive step. -/
def pythonRangeAux (step : Nat) : Nat → Nat → Nat → List Nat
  | 0, _, _ => []
  | fuel + 1, start, stop =>
    if start < stop then start :: pythonRangeAux step fuel (start + step) stop else []

/-- The Python expression `range(start, stop, step)` for a positive step. -/
def pythonRange (start stop step : Nat) : List Nat :=
  pythonRangeAux step (stop - start) start stop

/-- The mismatch levels visited by one sweep: `range(0, length, errorIncrement)`. -/
def sweepLevels (length errorIncrement : Nat) : List Nat :=
  pythonRange 0 length errorIncrement

/-- The per-level success-rate series of `plot`, lines 243-248: one point per
level, with value `successCounts[errorCount] / iterations`. -/
def successSeries (length errorIncrement iterations : Nat) (successCounts : Nat → Nat) :
    List (Nat × ℚ) :=
  (sweepLevels length errorIncrement).map fun e => (e, (successCounts e : ℚ) / (iterations : ℚ))

/-- The Python expression `max(list)` on a nonempty list; `none` for the empty
list, on which the original raises. -/
def pyMax : List ℚ → Option ℚ
  | [] => none
  | q :: qs => some (qs.foldl max q)

/-- The horizontal axis bounds set by `plot`, line 260: `(0.0, length + 1)`. -/
def xlim (length : Nat) : ℚ × ℚ :=
  (0, (length : ℚ) + 1)

/-- The vertical axis bounds set by `plot`, line 261:
`(-(iterations + 1) * zeroBitscoreScale, max(bitscores) + 5.0)`. -/
def ylim (iterations : Nat) (bitscores : List ℚ) : Option (ℚ × ℚ) :=
  (pyMax bitscores).map fun m => (-((iterations : ℚ) + 1) * zeroBitscoreScale, m + 5)

/-- The per-level block of (plotted value, color) pairs appended by a list of
successful-trial scores at one level whose miss counter starts at `missCount`;
used to characterise the output lists of the sampling loop. -/
def levelEntries (missCount : Nat) : List ℚ → List (ℚ × String)
  | [] => []
  | q :: qs =>
    if q = 0 then
      (-((missCount + 1 : Nat) : ℚ) * zeroBitscoreScale, missColor) :: levelEntries (missCount + 1) qs
    else (q, matchColor) :: levelEntries missCount qs

/-! ## Grid layout (`main`, lines 278-298 and 317-318) -/

/-- The sensitivity configurations of `main`, ordered by increasing elapsed
time as measured in an earlier run; `none` is the default sensitivity. -/
def sensitivities : List (Option String) :=
  [none, some "faster", some "fast", some "very-sensitive", some "mid-sensitive",
   some "more-sensitive", some "sensitive", some "ultra-sensitive"]

/-- The fixed column count of the subplot grid (`cols = 3`). -/
def gridCols : Nat := 3

/-- The row count of the subplot grid:
`rows = len(sensitivities) // cols + bool(len(sensitivities) % cols)`. -/
def gridRows (count cols : Nat) : Nat :=
  count / cols + (if count % cols = 0 then 0 else 1)

/-- Modelled from the spec: `dimensionalIterator((rows, cols))` is provided by
the external `dark.dimension` library, absent from this repository; following
the spec it yields every (row, column) cell of the grid in row-major order,
advancing left-to-right then top-to-bottom. -/
def dimensionalIterator (rows cols : Nat) : List (Nat × Nat) :=
  (List.range rows).flatMap fun r => (List.range cols).map fun c => (r, c)

/-- The cells that receive a configuration: the loop in `main` consumes one
cell of the iterator per configuration, in order. -/
def gridPlacements (count cols : Nat) : List (Nat × Nat) :=
  (dimensionalIterator (gridRows count cols) cols).take count

/-- The cells blanked by the cleanup loop of `main`, lines 317-318: whatever
remains of the iterator after placement. -/
def gridBlanked (count cols : Nat) : List (Nat × Nat) :=
  (dimensionalIterator (gridRows count cols) cols).drop count

/-- Truth of the adapter contract that scores are nonnegative, for one trial
outcome; used as a hypothesis about outcome streams. -/
def trialNonneg : TrialResult → Bool
  | TrialResult.timeout => true
  | TrialResult.score q => decide (0 ≤ q)

/-- A concrete stream of trial outcomes used to witness the sampler theorems:
two levels of three iterations each, with one interleaved timeout and one miss
per level. -/
def sampleStream : List TrialResult :=
  [TrialResult.score 7, TrialResult.timeout, TrialResult.score 0, TrialResult.score 12,
   TrialResult.score 0, TrialResult.score 5, TrialResult.score 9]

/-- The final state and leftover stream of the witness run, defaulting to the
start state when the stream would be too short (it is not). -/
def sampleFinal : SamplerState × List TrialResult :=
  (runSweep 3 (sweepLevels 10 5) initState sampleStream).getD (initState, [])

/-- The first match-rate point of the witness run, at mismatch level 0. -/
def sampleRatePoint : Nat × ℚ :=
  (0, ((sampleFinal.1.successCounts 0 : ℚ) / ((3 : Nat) : ℚ)))

/-! ## Sequence generator lemmas -/

theorem redraw_ne {α : Type} [DecidableEq α] (existing : α) :
    ∀ (ds : List α) (a : α), redraw existing ds = some a → a ≠ existing := by
  intro ds
  induction ds with
  | nil => intro a h; simp [redraw] at h
  | cons d ds ih =>
    intro a h
    by_cases hd : d = existing
    · exact ih a (by simpa [redraw, hd] using h)
    · have : d = a := by simpa [redraw, hd] using h
      subst this
      exact hd

theorem mutateQuery_spec {α : Type} [DecidableEq α] (subject : List α) :
    ∀ (idxs : List Nat) (qs : List α) (ds : List (List α)) (out : List α),
      qs.length = subject.length →
      mutateQuery subject qs idxs ds = some out →
      out.length = qs.length ∧
      (∀ j, j ∈ idxs → out.get? j ≠ subject.get? j) ∧
      (∀ j, j ∉ idxs → out.get? j = qs.get? j) := by
  intro idxs
  induction idxs with
  | nil =>
    intro qs ds out _ h
    have : qs = out := by cases ds <;> simpa [mutateQuery] using h
    subst this
    exact ⟨rfl, by simp, fun j _ => rfl⟩
  | cons idx idxs ih =>
    intro qs ds out hlen h
    cases ds with
    | nil => simp [mutateQuery] at h
    | cons d ds =>
      simp only [mutateQuery] at h
      split at h
      · simp at h
      · rename_i existing hsub
        split at h
        · simp at h
        · rename_i a hrd
          have hidxsub : idx < subject.length := by
            obtain ⟨hh, -⟩ := List.get?_eq_some.mp hsub
            exact hh
          have hidx : idx < qs.length := by rw [hlen]; exact hidxsub
          have hlen' : (qs.set idx a).length = subject.length := by
            simpa using hlen
          obtain ⟨H1, H2, H3⟩ := ih (qs.set idx a) ds out hlen' h
          refine ⟨by simpa using H1, ?_, ?_⟩
          · intro j hj
            rcases List.mem_cons.mp hj with rfl | hj'
            · by_cases hmem : j ∈ idxs
              · exact H2 j hmem
              · rw [H3 j hmem, List.get?_set_eq_of_lt a hidx, hsub]
                intro hcontra
                exact redraw_ne existing d a hrd (by simpa using hcontra)
            · exact H2 j hj'
          · intro j hj
            have hj1 : j ≠ idx := fun hc => hj (hc ▸ List.mem_cons_self idx idxs)
            have hj2 : j ∉ idxs := fun hc => hj (List.mem_cons_of_mem idx hc)
            rw [H3 j hj2, List.get?_set_ne a qs (fun hc => hj1 hc.symm)]

theorem hammingCount_eq_countP_range {α : Type} [DecidableEq α] :
    ∀ (u v : List α), u.length = v.length →
      hammingCount u v = (List.range u.length).countP fun j => decide ¬ u.get? j = v.get? j := by
  intro u
  induction u with
  | nil =>
    intro v h
    simp [hammingCount]
  | cons a u ih =>
    intro v h
    cases v with
    | nil => simp at h
    | cons b v =>
      have h' : u.length = v.length := by simpa using h
      have ihuv := ih v h'
      simp only [hammingCount, List.zip_cons_cons, List.countP_cons, List.length_cons,
        List.range_succ_eq_map, List.countP_map] at ihuv ⊢
      congr 1
      simp

theorem countP_range_mem (idxs : List Nat) (n : Nat) (hnd : idxs.Nodup)
    (hlt : ∀ j ∈ idxs, j < n) :
    ((List.range n).countP fun j => decide (j ∈ idxs)) = idxs.length := by
  rw [List.countP_eq_length_filter]
  have hperm : ((List.range n).filter fun j => decide (j ∈ idxs)).Perm idxs := by
    apply List.perm_of_nodup_nodup_toFinset_eq
    · exact (List.nodup_range n).filter _
    · exact hnd
    · ext x
      simp only [List.mem_toFinset, List.mem_filter, List.mem_range, decide_eq_true_eq]
      exact ⟨fun hx => hx.2, fun hx => ⟨hlt x hx, hx⟩⟩
  exact hperm.length_eq

/-- C1: for every length at least 1 and every mismatch count between 0 and the
length, every completed generation run (any subject of that length, any
shuffled index order, any replacement draws) produces a query whose Hamming
distance to the subject residue sequence is exactly the mismatch count, so the
sanity-check assertion of `sampleBitScore` never fires. -/
theorem c1_hamming_exact {α : Type} [DecidableEq α] (length errorCount : Nat)
    (subject query : List α) (perm : List Nat) (draws : List (List α))
    (hpos : 1 ≤ length) (hec : errorCount ≤ length) (hlen : subject.length = length)
    (hperm : perm.Perm (List.range length))
    (hgen : generateQuery subject perm errorCount draws = some query) :
    hammingCount query subject = errorCount := by
  have hpermlen : perm.length = length := by
    simpa using hperm.length_eq
  have hndperm : perm.Nodup := (hperm.nodup_iff).mpr (List.nodup_range length)
  have hnd : (perm.take errorCount).Nodup := (List.take_sublist _ _).nodup hndperm
  have hmemlt : ∀ j ∈ perm.take errorCount, j < length := by
    intro j hj
    have : j ∈ perm := List.mem_of_mem_take hj
    have : j ∈ List.range length := hperm.subset this
    simpa using this
  have htakelen : (perm.take errorCount).length = errorCount := by
    simp [hpermlen]
    omega
  obtain ⟨H1, H2, H3⟩ :=
    mutateQuery_spec subject (perm.take errorCount) subject draws query rfl hgen
  have hqlen : query.length = subject.length := H1
  rw [hammingCount_eq_countP_range query subject hqlen, hqlen, hlen]
  rw [← htakelen, ← countP_range_mem (perm.take errorCount) length hnd hmemlt]
  apply List.countP_congr
  intro j hj
  have hjlt : j < length := by simpa using hj
  simp only [decide_eq_true_eq]
  constructor
  · intro hne
    by_contra hmem
    exact hne (H3 j hmem)
  · intro hmem
    exact fun hc => H2 j hmem hc

/-- C9: for every length at least 1 and every outcome of the random draws, a
mismatch count of zero leaves the query identical to the subject, and a
mismatch count equal to the length makes every residue position of a
completed query differ from the subject. -/
theorem c9_identity_endpoints {α : Type} [DecidableEq α] (length : Nat)
    (subject : List α) (perm : List Nat) (draws : List (List α))
    (hpos : 1 ≤ length) (hlen : subject.length = length)
    (hperm : perm.Perm (List.range length)) :
    generateQuery subject perm 0 draws = some subject ∧
    ∀ query, generateQuery subject perm length draws = some query →
      ∀ j, j < length → query.get? j ≠ subject.get? j := by
  constructor
  · rfl
  · intro query hgen j hj
    have hpermlen : perm.length = length := by simpa using hperm.length_eq
    have htake : perm.take length = perm := by
      rw [← hpermlen]
      exact List.take_length perm
    rw [generateQuery, htake] at hgen
    obtain ⟨H1, H2, H3⟩ := mutateQuery_spec subject perm subject draws query rfl hgen
    apply H2
    have : j ∈ List.range length := by simpa using hj
    exact (hperm.mem_iff).mpr this

/-- Witness for C1 at a concrete input: length 2, one mismatch, subject AR,
shuffled order [1, 0], draw stream RG at the selected index. -/
theorem c1_hamming_exact_witness :
    hammingCount (['A', 'G'] : List Char) ['A', 'R'] = 1 := by
  exact c1_hamming_exact 2 1 ['A', 'R'] ['A', 'G'] [1, 0] [['R', 'G']]
    (by decide) (by decide) (by decide) (by decide) (by decide)

/-- Witness for C9 at a concrete input: length 1, subject A, draw stream AG. -/
theorem c9_identity_endpoints_witness :
    generateQuery (['A'] : List Char) [0] 0 [['A', 'G']] = some ['A'] ∧
    ∀ query, generateQuery (['A'] : List Char) [0] 1 [['A', 'G']] = some query →
      ∀ j, j < 1 → query.get? j ≠ (['A'] : List Char).get? j := by
  exact c9_identity_endpoints 1 ['A'] [0] [['A', 'G']] (by decide) (by decide) (by decide)

/-! ## Oracle adapter -/

/-- C3: with no candidate scores the adapter returns exactly 0.0, the miss
sentinel; with one or more candidates it returns the first one, and the
guarding assertion, fatal when violated, is exactly that the first candidate
is at least every other returned candidate. -/
theorem c3_adapter_first (b : ℚ) (rest : List ℚ) :
    adapterScore [] = some 0 ∧
    ((∀ c ∈ rest, c ≤ b) → adapterScore (b :: rest) = some b) ∧
    (¬ (∀ c ∈ rest, c ≤ b) → adapterScore (b :: rest) = none) := by
  refine ⟨rfl, fun h => ?_, fun h => ?_⟩
  · simp only [adapterScore]
    rw [if_pos h]
  · simp only [adapterScore]
    rw [if_neg h]

/-- Witness for C3: an empty oracle output, a sorted output, and an unsorted
output that trips the assertion. -/
theorem c3_adapter_first_witness :
    adapterScore [] = some 0 ∧
    adapterScore [(5 : ℚ), 3] = some 5 ∧
    adapterScore [(3 : ℚ), 5] = none := by
  exact ⟨(c3_adapter_first 5 [3]).1,
    (c3_adapter_first 5 [3]).2.1 (by decide),
    (c3_adapter_first 3 [5]).2.2 (by decide)⟩

/-! ## Grid layout lemmas -/

theorem dimensionalIterator_eq (cols : Nat) (hcols : 1 ≤ cols) :
    ∀ rows, dimensionalIterator rows cols =
      (List.range (rows * cols)).map fun i => (i / cols, i % cols) := by
  intro rows
  induction rows with
  | zero => simp [dimensionalIterator]
  | succ r ih =>
    rw [dimensionalIterator, List.range_succ, List.flatMap_append,
      ← dimensionalIterator, ih, Nat.succ_mul, List.range_add, List.map_append,
      List.map_map]
    congr 1
    have hsing : ([r].flatMap fun row => (List.range cols).map fun c => (row, c)) =
        (List.range cols).map fun c => (r, c) := by simp
    rw [hsing]
    apply List.map_congr_left
    intro c hc
    have hclt : c < cols := List.mem_range.mp hc
    have hdiv : (r * cols + c) / cols = r := by
      rw [Nat.mul_comm r cols, Nat.mul_add_div hcols, Nat.div_eq_of_lt hclt, Nat.add_zero]
    have hmod : (r * cols + c) % cols = c := by
      rw [Nat.mul_comm r cols, Nat.mul_add_mod, Nat.mod_eq_of_lt hclt]
    simp [Function.comp, hdiv, hmod]

theorem gridRows_eq_ceil (q r c : Nat) (hc : 1 ≤ c) (hr : r < c) :
    gridRows (c * q + r) c = (c * q + r + c - 1) / c := by
  have hdiv : (c * q + r) / c = q := by
    rw [Nat.mul_add_div hc, Nat.div_eq_of_lt hr, Nat.add_zero]
  have hmod : (c * q + r) % c = r := by
    rw [Nat.mul_add_mod, Nat.mod_eq_of_lt hr]
  rw [gridRows, hdiv, hmod]
  rcases Nat.eq_zero_or_pos r with rfl | hrpos
  · have h1 : c * q + 0 + c - 1 = c * q + (c - 1) := by
      rw [Nat.add_zero, Nat.add_sub_assoc hc]
    rw [h1, Nat.mul_add_div hc, Nat.div_eq_of_lt (Nat.sub_lt hc Nat.one_pos)]
    simp
  · have h1 : c * q + r + c - 1 = c * (q + 1) + (r - 1) := by
      rw [Nat.mul_add, Nat.mul_one, Nat.add_sub_assoc (by omega : 1 ≤ c)]
      omega
    rw [h1, Nat.mul_add_div hc, Nat.div_eq_of_lt (by omega : r - 1 < c),
      if_neg (Nat.pos_iff_ne_zero.mp hrpos)]

/-- C7: for `count` configurations in a grid with a fixed positive number of
columns, the row count equals the ceiling of `count / columns`, the i-th
configuration lands in row `i / columns` and column `i % columns`, and exactly
`rows * columns - count` trailing cells are blanked after placement. -/
theorem c7_grid_placement (count cols : Nat) (hcols : 1 ≤ cols) :
    gridRows count cols = (count + cols - 1) / cols ∧
    count ≤ gridRows count cols * cols ∧
    (∀ i, i < count → (gridPlacements count cols).get? i = some (i / cols, i % cols)) ∧
    (gridBlanked count cols).length = gridRows count cols * cols - count := by
  obtain ⟨q, r, hr, hqr⟩ : ∃ q r, r < cols ∧ cols * q + r = count :=
    ⟨count / cols, count % cols, Nat.mod_lt count hcols, Nat.div_add_mod count cols⟩
  have hceil : gridRows count cols = (count + cols - 1) / cols := by
    rw [← hqr]
    exact gridRows_eq_ceil q r cols hcols hr
  have hdiv : count / cols = q := by
    rw [← hqr, Nat.mul_add_div hcols, Nat.div_eq_of_lt hr, Nat.add_zero]
  have hmod : count % cols = r := by
    rw [← hqr, Nat.mul_add_mod, Nat.mod_eq_of_lt hr]
  have hle : count ≤ gridRows count cols * cols := by
    rw [gridRows, hdiv, hmod, ← hqr]
    rcases Nat.eq_zero_or_pos r with rfl | hrpos
    · simp [Nat.mul_comm]
    · have : (q + 1) * cols = q * cols + cols := Nat.succ_mul q cols
      simp only [if_neg (by omega : ¬ r = 0)]
      rw [this, Nat.mul_comm cols q]
      omega
  have hlenIter : (dimensionalIterator (gridRows count cols) cols).length =
      gridRows count cols * cols := by
    rw [dimensionalIterator_eq cols hcols]
    simp
  refine ⟨hceil, hle, ?_, ?_⟩
  · intro i hi
    rw [gridPlacements, List.get?_take hi, dimensionalIterator_eq cols hcols,
      List.get?_map, List.get?_range (by omega : i < gridRows count cols * cols)]
    rfl
  · rw [gridBlanked, List.length_drop, hlenIter]

/-- Witness for C7 at the configuration of `main`: eight sensitivity settings
in three columns give three rows, row-major placement, and one blanked cell. -/
theorem c7_grid_placement_witness :
    gridRows sensitivities.length gridCols = (sensitivities.length + gridCols - 1) / gridCols ∧
    sensitivities.length ≤ gridRows sensitivities.length gridCols * gridCols ∧
    (∀ i, i < sensitivities.length →
      (gridPlacements sensitivities.length gridCols).get? i = some (i / gridCols, i % gridCols)) ∧
    (gridBlanked sensitivities.length gridCols).length =
      gridRows sensitivities.length gridCols * gridCols - sensitivities.length := by
  exact c7_grid_placement sensitivities.length gridCols (by decide)

/-! ## Sampler lemmas -/

theorem recordTrial_fields (e : Nat) (st : SamplerState) (q : ℚ) :
    (recordTrial e st q).errorCounts = st.errorCounts ∧
    (recordTrial e st q).bitscores.length = st.bitscores.length + 1 ∧
    (recordTrial e st q).color.length = st.color.length + 1 ∧
    (recordTrial e st q).missCounts e = st.missCounts e + (if q = 0 then 1 else 0) ∧
    (recordTrial e st q).successCounts e = st.successCounts e + (if q = 0 then 0 else 1) ∧
    (∀ x, x ≠ e → (recordTrial e st q).missCounts x = st.missCounts x ∧
      (recordTrial e st q).successCounts x = st.successCounts x) := by
  by_cases hq : q = 0 <;> simp [recordTrial, hq] <;> intro x hx <;> simp [hx]

theorem runLevel_foldl (e : Nat) :
    ∀ (stream : List TrialResult) (n : Nat) (st st' : SamplerState)
      (stream' : List TrialResult),
      runLevel e n st stream = some (st', stream') →
      ∃ qs : List ℚ, qs.length = n ∧ st' = qs.foldl (recordTrial e) st ∧
        (∀ q ∈ qs, TrialResult.score q ∈ stream) ∧ (∀ x ∈ stream', x ∈ stream) := by
  intro stream
  induction stream with
  | nil =>
    intro n st st' stream' h
    cases n with
    | zero =>
      simp only [runLevel, Option.some.injEq, Prod.mk.injEq] at h
      obtain ⟨rfl, rfl⟩ := h
      exact ⟨[], rfl, rfl, by simp, by simp⟩
    | succ n => simp [runLevel] at h
  | cons t rest ih =>
    intro n st st' stream' h
    cases n with
    | zero =>
      simp only [runLevel, Option.some.injEq, Prod.mk.injEq] at h
      obtain ⟨rfl, rfl⟩ := h
      exact ⟨[], rfl, rfl, by simp, fun x hx => hx⟩
    | succ n =>
      cases t with
      | timeout =>
        simp only [runLevel] at h
        obtain ⟨qs, hlen, hst, hq, hsub⟩ := ih (n + 1) st st' stream' h
        exact ⟨qs, hlen, hst, fun q hq' => List.mem_cons_of_mem _ (hq q hq'),
          fun x hx => List.mem_cons_of_mem _ (hsub x hx)⟩
      | score q =>
        simp only [runLevel] at h
        obtain ⟨qs, hlen, hst, hq, hsub⟩ := ih n (recordTrial e st q) st' stream' h
        refine ⟨q :: qs, by simp [hlen], by simp [hst], ?_, ?_⟩
        · intro q' hq'
          rcases List.mem_cons.mp hq' with rfl | hq''
          · exact List.mem_cons_self _ _
          · exact List.mem_cons_of_mem _ (hq q' hq'')
        · intro x hx
          exact List.mem_cons_of_mem _ (hsub x hx)

theorem foldl_recordTrial_spec (e : Nat) :
    ∀ (qs : List ℚ) (st : SamplerState),
      (qs.foldl (recordTrial e) st).errorCounts = st.errorCounts ∧
      (qs.foldl (recordTrial e) st).bitscores.length = st.bitscores.length + qs.length ∧
      (qs.foldl (recordTrial e) st).color.length = st.color.length + qs.length ∧
      (qs.foldl (recordTrial e) st).missCounts e =
        st.missCounts e + qs.countP (fun q => decide (q = 0)) ∧
      (qs.foldl (recordTrial e) st).successCounts e =
        st.successCounts e + qs.countP (fun q => decide ¬ q = 0) ∧
      (∀ x, x ≠ e → (qs.foldl (recordTrial e) st).missCounts x = st.missCounts x ∧
        (qs.foldl (recordTrial e) st).successCounts x = st.successCounts x) := by
  intro qs
  induction qs with
  | nil => intro st; simp
  | cons q qs ih =>
    intro st
    rw [List.foldl_cons]
    obtain ⟨E, B, C, M, S, O⟩ := ih (recordTrial e st q)
    obtain ⟨E0, B0, C0, M0, S0, O0⟩ := recordTrial_fields e st q
    refine ⟨by rw [E, E0], by rw [B, B0, List.length_cons]; omega,
      by rw [C, C0, List.length_cons]; omega, ?_, ?_, ?_⟩
    · rw [M, M0, List.countP_cons]
      by_cases hq : q = 0 <;> simp [hq] <;> omega
    · rw [S, S0, List.countP_cons]
      by_cases hq : q = 0 <;> simp [hq] <;> omega
    · intro x hx
      obtain ⟨O1, O2⟩ := O x hx
      obtain ⟨O3, O4⟩ := O0 x hx
      exact ⟨by rw [O1, O3], by rw [O2, O4]⟩

theorem foldl_recordTrial_zip (e : Nat) :
    ∀ (qs : List ℚ) (st : SamplerState), st.bitscores.length = st.color.length →
      (qs.foldl (recordTrial e) st).bitscores.zip (qs.foldl (recordTrial e) st).color =
        st.bitscores.zip st.color ++ levelEntries (st.missCounts e) qs := by
  intro qs
  induction qs with
  | nil => intro st _; simp [levelEntries]
  | cons q qs ih =>
    intro st h
    rw [List.foldl_cons]
    by_cases hq : q = 0
    · have h1 : (recordTrial e st q).bitscores.length = (recordTrial e st q).color.length := by
        simp [recordTrial, hq, h]
      rw [ih (recordTrial e st q) h1]
      have h2 : (recordTrial e st q).bitscores.zip (recordTrial e st q).color =
          st.bitscores.zip st.color ++
            [(-((st.missCounts e + 1 : Nat) : ℚ) * zeroBitscoreScale, missColor)] := by
        simp only [recordTrial, hq, if_true, ite_true]
        exact List.zip_append h
      have h3 : (recordTrial e st q).missCounts e = st.missCounts e + 1 := by
        simp [recordTrial, hq]
      rw [h2, h3, levelEntries, if_pos hq, List.append_assoc]
      rfl
    · have h1 : (recordTrial e st q).bitscores.length = (recordTrial e st q).color.length := by
        simp [recordTrial, hq, h]
      rw [ih (recordTrial e st q) h1]
      have h2 : (recordTrial e st q).bitscores.zip (recordTrial e st q).color =
          st.bitscores.zip st.color ++ [(q, matchColor)] := by
        simp only [recordTrial, hq, if_false, ite_false]
        exact List.zip_append h
      have h3 : (recordTrial e st q).missCounts e = st.missCounts e := by
        simp [recordTrial, hq]
      rw [h2, h3, levelEntries, if_neg hq, List.append_assoc]
      rfl

/-- C2: a timeout outcome changes nothing: the loop state (outcome lists and
counters) and the remaining-iteration count are unchanged, the trial is simply
re-run on the rest of the stream; and a completed level always records exactly
the demanded number of successful trials, however many timeouts occurred. -/
theorem c2_timeout_retry :
    (∀ (e n : Nat) (st : SamplerState) (s : List TrialResult), 0 < n →
      runLevel e n st (TrialResult.timeout :: s) = runLevel e n st s) ∧
    (∀ (e n : Nat) (st st' : SamplerState) (s s' : List TrialResult),
      runLevel e n st s = some (st', s') →
      st'.bitscores.length = st.bitscores.length + n ∧
      st'.color.length = st.color.length + n ∧
      st'.errorCounts = st.errorCounts ∧
      st'.successCounts e + st'.missCounts e = st.successCounts e + st.missCounts e + n) := by
  constructor
  · intro e n st s hn
    cases n with
    | zero => omega
    | succ n => rfl
  · intro e n st st' s s' h
    obtain ⟨qs, hlen, rfl, -, -⟩ := runLevel_foldl e s n st st' s' h
    obtain ⟨E, B, C, M, S, -⟩ := foldl_recordTrial_spec e qs st
    refine ⟨by rw [B, hlen], by rw [C, hlen], E, ?_⟩
    rw [M, S, ← hlen]
    have hsplit : qs.length =
        qs.countP (fun q => decide (q = 0)) + qs.countP (fun q => decide ¬ q = 0) := by
      rw [List.length_eq_countP_add_countP (fun q => decide (q = 0)) qs]
      congr 1
      apply List.countP_congr
      intro a _
      by_cases h : a = 0 <;> simp [h]
    omega

/-- Witness for C2: one level, two demanded iterations, a stream with a
timeout between two scores. -/
theorem c2_timeout_retry_witness :
    (runLevel 0 2 initState
        [TrialResult.timeout, TrialResult.score 7, TrialResult.score 0] =
      runLevel 0 2 initState [TrialResult.score 7, TrialResult.score 0]) ∧
    ∀ st' s', runLevel 0 2 initState [TrialResult.score 7, TrialResult.score 0] =
        some (st', s') →
      st'.bitscores.length = initState.bitscores.length + 2 ∧
      st'.color.length = initState.color.length + 2 ∧
      st'.errorCounts = initState.errorCounts ∧
      st'.successCounts 0 + st'.missCounts 0 =
        initState.successCounts 0 + initState.missCounts 0 + 2 := by
  exact ⟨c2_timeout_retry.1 0 2 initState [TrialResult.score 7, TrialResult.score 0]
      (by decide),
    fun st' s' h => c2_timeout_retry.2 0 2 initState st'
      [TrialResult.score 7, TrialResult.score 0] s' h⟩

theorem pythonRangeAux_bounds (step : Nat) :
    ∀ (fuel start stop x : Nat), x ∈ pythonRangeAux step fuel start stop →
      start ≤ x ∧ x < stop := by
  intro fuel
  induction fuel with
  | zero => intro start stop x hx; simp [pythonRangeAux] at hx
  | succ fuel ih =>
    intro start stop x hx
    rw [pythonRangeAux] at hx
    by_cases hlt : start < stop
    · rw [if_pos hlt] at hx
      rcases List.mem_cons.mp hx with rfl | hx'
      · exact ⟨Nat.le_refl x, hlt⟩
      · obtain ⟨h1, h2⟩ := ih (start + step) stop x hx'
        exact ⟨by omega, h2⟩
    · rw [if_neg hlt] at hx
      simp at hx

theorem pythonRangeAux_nodup (step : Nat) (hstep : 1 ≤ step) :
    ∀ (fuel start stop : Nat), (pythonRangeAux step fuel start stop).Nodup := by
  intro fuel
  induction fuel with
  | zero => intro start stop; simp [pythonRangeAux]
  | succ fuel ih =>
    intro start stop
    rw [pythonRangeAux]
    by_cases hlt : start < stop
    · rw [if_pos hlt]
      refine List.nodup_cons.mpr ⟨?_, ih (start + step) stop⟩
      intro hmem
      obtain ⟨h1, -⟩ := pythonRangeAux_bounds step fuel (start + step) stop start hmem
      omega
    · rw [if_neg hlt]
      exact List.nodup_nil

theorem mem_pythonRangeAux (step : Nat) (hstep : 1 ≤ step) :
    ∀ (fuel start stop x : Nat), stop ≤ start + fuel * step →
      (x ∈ pythonRangeAux step fuel start stop ↔
        (∃ k, x = start + k * step) ∧ x < stop) := by
  intro fuel
  induction fuel with
  | zero =>
    intro start stop x hfuel
    simp only [pythonRangeAux, List.not_mem_nil, false_iff]
    rintro ⟨⟨k, rfl⟩, hlt⟩
    omega
  | succ fuel ih =>
    intro start stop x hfuel
    rw [pythonRangeAux]
    by_cases hlt : start < stop
    · have hfuel2 : stop ≤ start + step + fuel * step := by
        rw [Nat.succ_mul] at hfuel
        omega
      rw [if_pos hlt, List.mem_cons, ih (start + step) stop x hfuel2]
      constructor
      · rintro (rfl | ⟨⟨k, rfl⟩, h2⟩)
        · exact ⟨⟨0, by omega⟩, hlt⟩
        · exact ⟨⟨k + 1, by ring⟩, h2⟩
      · rintro ⟨⟨k, rfl⟩, h2⟩
        cases k with
        | zero => left; omega
        | succ k => right; exact ⟨⟨k, by ring⟩, h2⟩
    · rw [if_neg hlt]
      simp only [List.not_mem_nil, false_iff]
      rintro ⟨⟨k, rfl⟩, h2⟩
      omega

theorem mem_sweepLevels (L inc : Nat) (hinc : 1 ≤ inc) (x : Nat) :
    x ∈ sweepLevels L inc ↔ (∃ k, x = k * inc) ∧ x < L := by
  rw [sweepLevels, pythonRange,
    mem_pythonRangeAux inc hinc (L - 0) 0 L x (by nlinarith [Nat.sub_zero L])]
  constructor
  · rintro ⟨⟨k, hk⟩, h2⟩
    exact ⟨⟨k, by omega⟩, h2⟩
  · rintro ⟨⟨k, hk⟩, h2⟩
    exact ⟨⟨k, by omega⟩, h2⟩

theorem sweepLevels_nodup (L inc : Nat) (hinc : 1 ≤ inc) : (sweepLevels L inc).Nodup :=
  pythonRangeAux_nodup inc hinc (L - 0) 0 L

theorem runSweep_spec (iters : Nat) :
    ∀ (levels : List Nat) (st : SamplerState) (s s' : List TrialResult)
      (st' : SamplerState),
      runSweep iters levels st s = some (st', s') →
      st.bitscores.length = st.color.length →
      st.errorCounts.length = st.bitscores.length →
      levels.Nodup →
      (∀ e ∈ levels, st.missCounts e = 0 ∧ st.successCounts e = 0) →
      ∃ qss : List (List ℚ),
        qss.length = levels.length ∧
        (∀ qs ∈ qss, qs.length = iters) ∧
        (∀ qs ∈ qss, ∀ q ∈ qs, TrialResult.score q ∈ s) ∧
        st'.errorCounts =
          st.errorCounts ++ (levels.zip qss).flatMap (fun p => List.replicate iters p.1) ∧
        st'.bitscores.zip st'.color =
          st.bitscores.zip st.color ++ (levels.zip qss).flatMap (fun p => levelEntries 0 p.2) ∧
        st'.bitscores.length = st.bitscores.length + levels.length * iters ∧
        st'.color.length = st.color.length + levels.length * iters ∧
        st'.errorCounts.length = st.errorCounts.length + levels.length * iters ∧
        (∀ p ∈ levels.zip qss,
          st'.missCounts p.1 = p.2.countP (fun q => decide (q = 0)) ∧
          st'.successCounts p.1 = p.2.countP (fun q => decide ¬ q = 0)) ∧
        (∀ x, x ∉ levels →
          st'.missCounts x = st.missCounts x ∧ st'.successCounts x = st.successCounts x) := by
  intro levels
  induction levels with
  | nil =>
    intro st s s' st' h _ _ _ _
    simp only [runSweep, Option.some.injEq, Prod.mk.injEq] at h
    obtain ⟨rfl, rfl⟩ := h
    exact ⟨[], rfl, by simp, by simp, by simp, by simp, by simp, by simp, by simp,
      by simp, fun x _ => ⟨rfl, rfl⟩⟩
  | cons e levels ih =>
    intro st s s' st' h hbc hec hnd hzero
    simp only [runSweep] at h
    cases hlev : runLevel e iters st s with
    | none => rw [hlev] at h; simp at h
    | some p =>
      obtain ⟨st1, s1⟩ := p
      rw [hlev] at h
      simp only at h
      obtain ⟨qs, hqslen, hst1, hqmem, hsub⟩ := runLevel_foldl e s iters st st1 s1 hlev
      obtain ⟨E, B, C, M, S, O⟩ := foldl_recordTrial_spec e qs st
      rw [← hst1] at E B C M S O
      have hz_e : st.missCounts e = 0 ∧ st.successCounts e = 0 :=
        hzero e (List.mem_cons_self e levels)
      have hndtail : levels.Nodup := (List.nodup_cons.mp hnd).2
      have henotin : e ∉ levels := (List.nodup_cons.mp hnd).1
      set st2 : SamplerState :=
        { st1 with errorCounts := st1.errorCounts ++ List.replicate iters e } with hst2
      have h2bc : st2.bitscores.length = st2.color.length := by
        simp only [hst2]
        rw [B, C, hbc]
      have h2ec : st2.errorCounts.length = st2.bitscores.length := by
        simp only [hst2]
        rw [List.length_append, List.length_replicate, E, B, hec, hqslen]
      have h2zero : ∀ e' ∈ levels, st2.missCounts e' = 0 ∧ st2.successCounts e' = 0 := by
        intro e' he'
        have hne : e' ≠ e := fun hc => henotin (hc ▸ he')
        obtain ⟨O1, O2⟩ := O e' hne
        have := hzero e' (List.mem_cons_of_mem e he')
        simp only [hst2]
        rw [O1, O2]
        exact this
      obtain ⟨qss, H1, H2, H3, H4, H5, H6, H7, H8, H9, H10⟩ :=
        ih st2 s1 s' st' h h2bc h2ec hndtail h2zero
      have hzipcons : (e :: levels).zip (qs :: qss) = (e, qs) :: levels.zip qss := rfl
      refine ⟨qs :: qss, by simp [H1], ?_, ?_, ?_, ?_, ?_, ?_, ?_, ?_, ?_⟩
      · intro qs' hqs'
        rcases List.mem_cons.mp hqs' with rfl | h'
        · exact hqslen
        · exact H2 qs' h'
      · intro qs' hqs' q hq
        rcases List.mem_cons.mp hqs' with rfl | h'
        · exact hqmem q hq
        · exact hsub _ (H3 qs' h' q hq)
      · rw [H4, hzipcons, List.flatMap_cons]
        simp only [hst2]
        rw [E, List.append_assoc]
      · rw [H5, hzipcons, List.flatMap_cons]
        have hzz : st2.bitscores.zip st2.color = st1.bitscores.zip st1.color := rfl
        have hzip1 : st1.bitscores.zip st1.color =
            st.bitscores.zip st.color ++ levelEntries (st.missCounts e) qs := by
          rw [hst1]
          exact foldl_recordTrial_zip e qs st hbc
        rw [hzz, hzip1, hz_e.1, List.append_assoc]
      · rw [H6]
        simp only [hst2]
        rw [B, hqslen, List.length_cons]
        ring
      · rw [H7]
        simp only [hst2]
        rw [C, hqslen, List.length_cons]
        ring
      · rw [H8]
        simp only [hst2]
        rw [List.length_append, List.length_replicate, E, List.length_cons]
        ring
      · intro p hp
        rw [hzipcons] at hp
        rcases List.mem_cons.mp hp with rfl | hp'
        · obtain ⟨O1, O2⟩ := H10 e henotin
          have hm2 : st2.missCounts e = st1.missCounts e := rfl
          have hs2 : st2.successCounts e = st1.successCounts e := rfl
          rw [O1, O2, hm2, hs2, M, S, hz_e.1, hz_e.2]
          simp
        · exact H9 p hp'
      · intro x hx
        have hx1 : x ≠ e := fun hc => hx (hc ▸ List.mem_cons_self e levels)
        have hx2 : x ∉ levels := fun hc => hx (List.mem_cons_of_mem e hc)
        obtain ⟨O1, O2⟩ := H10 x hx2
        obtain ⟨O3, O4⟩ := O x hx1
        have hm2 : st2.missCounts x = st1.missCounts x := rfl
        have hs2 : st2.successCounts x = st1.successCounts x := rfl
        exact ⟨by rw [O1, hm2, O3], by rw [O2, hs2, O4]⟩

theorem countP_zero_split (qs : List ℚ) :
    qs.countP (fun q => decide (q = 0)) + qs.countP (fun q => decide ¬ q = 0) = qs.length := by
  have h := List.length_eq_countP_add_countP (fun q => decide (q = 0)) qs
  have hneg : qs.countP (fun a => decide ¬ decide (a = 0) = true) =
      qs.countP (fun q => decide ¬ q = 0) := by
    apply List.countP_congr
    intro a _
    by_cases ha : a = 0 <;> simp [ha]
  omega

theorem levelEntries_length (qs : List ℚ) : ∀ m, (levelEntries m qs).length = qs.length := by
  induction qs with
  | nil => intro m; simp [levelEntries]
  | cons q qs ih =>
    intro m
    by_cases hq : q = 0 <;> simp [levelEntries, hq, ih]

theorem levelEntries_filter_miss (qs : List ℚ) : ∀ m,
    (levelEntries m qs).filter (fun p => decide (p.2 = missColor)) =
      (List.range' (m + 1) (qs.countP fun q => decide (q = 0))).map
        (fun k => (-((k : Nat) : ℚ) * zeroBitscoreScale, missColor)) := by
  induction qs with
  | nil => intro m; simp [levelEntries]
  | cons q qs ih =>
    intro m
    by_cases hq : q = 0
    · rw [levelEntries, if_pos hq, List.countP_cons, if_pos (by simp [hq])]
      rw [List.filter_cons, if_pos (by simp)]
      have hr : List.range' (m + 1) (qs.countP (fun q => decide (q = 0)) + 1) =
          (m + 1) :: List.range' (m + 2) (qs.countP fun q => decide (q = 0)) := rfl
      rw [hr, List.map_cons, ih (m + 1)]
    · rw [levelEntries, if_neg hq, List.countP_cons, if_neg (by simp [hq])]
      rw [List.filter_cons, if_neg (by simp [matchColor, missColor])]
      exact ih m

theorem levelEntries_miss_val (qs : List ℚ) : ∀ m p, p ∈ levelEntries m qs →
    p.2 = missColor →
    ∃ k, m + 1 ≤ k ∧ k ≤ m + qs.countP (fun q => decide (q = 0)) ∧
      p.1 = -((k : Nat) : ℚ) * zeroBitscoreScale := by
  induction qs with
  | nil => intro m p hp _; simp [levelEntries] at hp
  | cons q qs ih =>
    intro m p hp hmiss
    by_cases hq : q = 0
    · rw [levelEntries, if_pos hq] at hp
      rcases List.mem_cons.mp hp with rfl | hp'
      · exact ⟨m + 1, Nat.le_refl _, by
          rw [List.countP_cons, if_pos (by simp [hq])]
          omega, rfl⟩
      · obtain ⟨k, h1, h2, h3⟩ := ih (m + 1) p hp' hmiss
        refine ⟨k, by omega, ?_, h3⟩
        rw [List.countP_cons, if_pos (by simp [hq])]
        omega
    · rw [levelEntries, if_neg hq] at hp
      rcases List.mem_cons.mp hp with rfl | hp'
      · simp [matchColor, missColor] at hmiss
      · obtain ⟨k, h1, h2, h3⟩ := ih m p hp' hmiss
        refine ⟨k, h1, ?_, h3⟩
        rw [List.countP_cons, if_neg (by simp [hq])]
        omega

theorem levelEntries_filter_pos (qs : List ℚ) :
    ∀ m, (∀ q ∈ qs, 0 ≤ q) →
      ((levelEntries m qs).filter fun p => decide (0 < p.1)).length =
        qs.countP fun q => decide ¬ q = 0 := by
  induction qs with
  | nil => intro m _; simp [levelEntries]
  | cons q qs ih =>
    intro m hnn
    have hnn' : ∀ q' ∈ qs, 0 ≤ q' := fun q' hq' => hnn q' (List.mem_cons_of_mem q hq')
    by_cases hq : q = 0
    · rw [levelEntries, if_pos hq, List.countP_cons, if_neg (by simp [hq])]
      rw [List.filter_cons, if_neg ?hneg]
      · exact ih (m + 1) hnn'
      case hneg =>
        have hmpos : (0 : ℚ) < ((m + 1 : Nat) : ℚ) := by
          exact_mod_cast Nat.succ_pos m
        have : -((m + 1 : Nat) : ℚ) * zeroBitscoreScale < 0 := by
          rw [zeroBitscoreScale]
          nlinarith
        simp only [decide_eq_true_eq]
        intro hcontra
        exact absurd (lt_trans hcontra this) (lt_irrefl 0)
    · rw [levelEntries, if_neg hq, List.countP_cons, if_pos (by simp [hq])]
      have hqpos : 0 < q :=
        lt_of_le_of_ne (hnn q (List.mem_cons_self q qs)) (Ne.symm hq)
      rw [List.filter_cons, if_pos (by simpa using hqpos)]
      rw [List.length_cons, ih m hnn']

theorem foldl_max_bound : ∀ (qs : List ℚ) (a : ℚ),
    a ≤ qs.foldl max a ∧ ∀ v ∈ qs, v ≤ qs.foldl max a := by
  intro qs
  induction qs with
  | nil => intro a; simp
  | cons q qs ih =>
    intro a
    rw [List.foldl_cons]
    obtain ⟨h1, h2⟩ := ih (max a q)
    refine ⟨le_trans (le_max_left a q) h1, ?_⟩
    intro v hv
    rcases List.mem_cons.mp hv with rfl | hv'
    · exact le_trans (le_max_right a v) h1
    · exact h2 v hv'

theorem pyMax_ge (l : List ℚ) (m : ℚ) (hm : pyMax l = some m) : ∀ v ∈ l, v ≤ m := by
  cases l with
  | nil => simp [pyMax] at hm
  | cons q qs =>
    simp only [pyMax, Option.some.injEq] at hm
    subst hm
    intro v hv
    obtain ⟨h1, h2⟩ := foldl_max_bound qs q
    rcases List.mem_cons.mp hv with rfl | hv'
    · exact h1
    · exact h2 v hv'

theorem chain_gt_range_map : ∀ (n a : Nat), List.Chain' (fun x y => y < x)
    ((List.range' a n).map fun k => -((k : Nat) : ℚ) * zeroBitscoreScale) := by
  intro n
  induction n with
  | zero => intro a; simp
  | succ n ih =>
    intro a
    have hr : List.range' a (n + 1) = a :: List.range' (a + 1) n := rfl
    rw [hr, List.map_cons]
    cases n with
    | zero => simp
    | succ n =>
      have hr2 : List.range' (a + 1) (n + 1) = (a + 1) :: List.range' (a + 2) n := rfl
      rw [hr2, List.map_cons]
      refine List.chain'_cons.mpr ⟨?_, ?_⟩
      · have hval : -(((a + 1 : Nat)) : ℚ) * zeroBitscoreScale <
            -((a : Nat) : ℚ) * zeroBitscoreScale := by
          rw [zeroBitscoreScale]
          have hlt : ((a : Nat) : ℚ) < ((a + 1 : Nat) : ℚ) := by
            exact_mod_cast Nat.lt_succ_self a
          nlinarith
        simpa using hval
      · have := ih (a + 1)
        rw [hr2, List.map_cons] at this
        exact this

theorem replicate_zip {β : Type} (a : Nat) :
    ∀ l : List β, (List.replicate l.length a).zip l = l.map fun x => (a, x) := by
  intro l
  induction l with
  | nil => rfl
  | cons x l ih => simp only [List.length_cons, List.replicate_succ, List.zip_cons_cons,
      List.map_cons, ih]

theorem zip_flatMap_blocks {β : Type} (iters : Nat) (f : Nat × List ℚ → List β) :
    ∀ ps : List (Nat × List ℚ), (∀ p ∈ ps, (f p).length = iters) →
      (ps.flatMap (fun p => List.replicate iters p.1)).zip (ps.flatMap f) =
        ps.flatMap fun p => (List.replicate iters p.1).zip (f p) := by
  intro ps
  induction ps with
  | nil => intro _; rfl
  | cons p ps ih =>
    intro hlen
    rw [List.flatMap_cons, List.flatMap_cons, List.flatMap_cons,
      List.zip_append
        (by rw [List.length_replicate, hlen p (List.mem_cons_self p ps)]),
      ih fun p' hp' => hlen p' (List.mem_cons_of_mem p hp')]

theorem filter_key_flatMap {β : Type} (e iters : Nat) (f : Nat × List ℚ → List β) :
    ∀ ps : List (Nat × List ℚ), (∀ p ∈ ps, (f p).length = iters) →
      ((ps.flatMap fun p => (List.replicate iters p.1).zip (f p)).filter
          fun x => decide (x.1 = e)) =
        (ps.filter fun p => decide (p.1 = e)).flatMap
          fun p => (f p).map fun y => (e, y) := by
  intro ps
  induction ps with
  | nil => intro _; rfl
  | cons p ps ih =>
    intro hlen
    rw [List.flatMap_cons, List.filter_append,
      ih fun p' hp' => hlen p' (List.mem_cons_of_mem p hp')]
    have hblock : (List.replicate iters p.1).zip (f p) = (f p).map fun y => (p.1, y) := by
      rw [← hlen p (List.mem_cons_self p ps)]
      exact replicate_zip p.1 (f p)
    rw [hblock, List.filter_map]
    by_cases hp : p.1 = e
    · rw [List.filter_cons, if_pos (by simpa using hp), List.flatMap_cons]
      congr 1
      have hcomp : ((fun x : Nat × β => decide (x.1 = e)) ∘ fun y => (p.1, y)) =
          fun _ => true := by
        funext y
        simp [hp]
      rw [hcomp, List.filter_true, hp]
    · rw [List.filter_cons, if_neg (by simpa using hp)]
      have hcomp : ((fun x : Nat × β => decide (x.1 = e)) ∘ fun y => (p.1, y)) =
          fun _ => false := by
        funext y
        simp [hp]
      rw [hcomp, List.filter_false, List.map_nil, List.nil_append]

theorem filter_key_singleton :
    ∀ (ps : List (Nat × List ℚ)) (e : Nat) (qs : List ℚ),
      (ps.map Prod.fst).Nodup → (e, qs) ∈ ps →
      ps.filter (fun p => decide (p.1 = e)) = [(e, qs)] := by
  intro ps
  induction ps with
  | nil => intro e qs _ hmem; simp at hmem
  | cons p ps ih =>
    intro e qs hnd hmem
    rw [List.map_cons, List.nodup_cons] at hnd
    obtain ⟨hnot, hnd'⟩ := hnd
    rcases List.mem_cons.mp hmem with rfl | hmem'
    · rw [List.filter_cons, if_pos (by simp)]
      have hnil : ps.filter (fun p => decide (p.1 = e)) = [] := by
        rw [List.filter_eq_nil_iff]
        intro a ha
        simp only [decide_eq_true_eq]
        intro hc
        have h0 : a.1 ∈ List.map Prod.fst ps := List.mem_map_of_mem Prod.fst ha
        rw [hc] at h0
        exact hnot h0
      rw [hnil]
    · have hp1 : p.1 ≠ e := by
        intro hc
        apply hnot
        rw [hc]
        simpa using List.mem_map_of_mem Prod.fst hmem'
      rw [List.filter_cons, if_neg (by simpa using hp1)]
      exact ih e qs hnd' hmem'

theorem map_zip3_fst {α β γ : Type} :
    ∀ (a : List α) (b : List β) (c : List γ), b.length = c.length →
      (a.zip (b.zip c)).map (fun t => (t.1, t.2.1)) = a.zip b := by
  intro a
  induction a with
  | nil => intro b c _; rfl
  | cons x a ih =>
    intro b c h
    cases b with
    | nil => rfl
    | cons y b =>
      cases c with
      | nil => simp at h
      | cons z c =>
        simp only [List.zip_cons_cons, List.map_cons]
        rw [ih b c (by simpa using h)]

/-- C6: a sweep visits exactly the multiples of the increment strictly below
the length; a completed sweep records one outcome per iteration per level in
each of the three output lists, giving a sample set of exactly
levels-times-iterations outcomes, and the match-rate series has exactly one
point per level, in level order. -/
theorem c6_sweep_shape (L inc iters : Nat) (hinc : 1 ≤ inc)
    (s s' : List TrialResult) (st' : SamplerState)
    (hrun : runSweep iters (sweepLevels L inc) initState s = some (st', s')) :
    (∀ e, e ∈ sweepLevels L inc ↔ (∃ k, e = k * inc) ∧ e < L) ∧
    st'.errorCounts.length = (sweepLevels L inc).length * iters ∧
    st'.bitscores.length = (sweepLevels L inc).length * iters ∧
    st'.color.length = (sweepLevels L inc).length * iters ∧
    (successSeries L inc iters st'.successCounts).length = (sweepLevels L inc).length ∧
    (successSeries L inc iters st'.successCounts).map Prod.fst = sweepLevels L inc := by
  obtain ⟨qss, H1, H2, H3, H4, H5, H6, H7, H8, H9, H10⟩ :=
    runSweep_spec iters (sweepLevels L inc) initState s s' st' hrun rfl rfl
      (sweepLevels_nodup L inc hinc) (fun e _ => ⟨rfl, rfl⟩)
  refine ⟨fun e => mem_sweepLevels L inc hinc e, ?_, ?_, ?_, ?_, ?_⟩
  · rw [H8]; simp [initState]
  · rw [H6]; simp [initState]
  · rw [H7]; simp [initState]
  · simp [successSeries]
  · rw [successSeries, List.map_map]
    conv_lhs =>
      rw [show (Prod.fst ∘ fun e : Nat => (e, (st'.successCounts e : ℚ) / (iters : ℚ))) =
        id from rfl]
    rw [List.map_id]

/-- C10: after a completed sweep, the per-level match and miss counters of
every visited level sum to exactly the iteration count, and the three parallel
output lists have equal length. -/
theorem c10_counters_partition (L inc iters : Nat) (hinc : 1 ≤ inc)
    (s s' : List TrialResult) (st' : SamplerState)
    (hrun : runSweep iters (sweepLevels L inc) initState s = some (st', s')) :
    (∀ e ∈ sweepLevels L inc, st'.successCounts e + st'.missCounts e = iters) ∧
    st'.errorCounts.length = st'.bitscores.length ∧
    st'.bitscores.length = st'.color.length := by
  obtain ⟨qss, H1, H2, H3, H4, H5, H6, H7, H8, H9, H10⟩ :=
    runSweep_spec iters (sweepLevels L inc) initState s s' st' hrun rfl rfl
      (sweepLevels_nodup L inc hinc) (fun e _ => ⟨rfl, rfl⟩)
  refine ⟨?_, by rw [H8, H6]; rfl, by rw [H6, H7]; rfl⟩
  intro e he
  have hkeys : ((sweepLevels L inc).zip qss).map Prod.fst = sweepLevels L inc :=
    List.map_fst_zip _ _ (le_of_eq H1.symm)
  have hemem : e ∈ ((sweepLevels L inc).zip qss).map Prod.fst := by
    rw [hkeys]; exact he
  obtain ⟨p, hp, hpe⟩ := List.mem_map.mp hemem
  obtain ⟨a, b⟩ := p
  simp only at hpe
  subst hpe
  obtain ⟨hm, hsc⟩ := H9 (a, b) hp
  have hblen : b.length = iters := H2 b (List.of_mem_zip hp).2
  simp only at hm hsc
  rw [hm, hsc]
  have hsplit := countP_zero_split b
  omega

/-- C4: within one completed sweep, at every visited mismatch level the
recorded miss entries are, in order, exactly the stacked values
`-k * zeroBitscoreScale` for `k = 1 .. missCounts[e]` with the miss color,
where `zeroBitscoreScale = 2`; hence successive miss values at one level
strictly decrease. -/
theorem c4_miss_stacking (L inc iters : Nat) (hinc : 1 ≤ inc)
    (s s' : List TrialResult) (st' : SamplerState)
    (hrun : runSweep iters (sweepLevels L inc) initState s = some (st', s')) :
    zeroBitscoreScale = 2 ∧
    ∀ e ∈ sweepLevels L inc,
      ((((st'.errorCounts.zip (st'.bitscores.zip st'.color)).filter
          fun x => decide (x.1 = e)).map fun x => x.2).filter
          fun y => decide (y.2 = missColor)) =
        (List.range' 1 (st'.missCounts e)).map
          (fun k => (-((k : Nat) : ℚ) * zeroBitscoreScale, missColor)) ∧
      List.Chain' (fun x y => y < x)
        (((((st'.errorCounts.zip (st'.bitscores.zip st'.color)).filter
          fun x => decide (x.1 = e)).map fun x => x.2).filter
          fun y => decide (y.2 = missColor)).map Prod.fst) := by
  obtain ⟨qss, H1, H2, H3, H4, H5, H6, H7, H8, H9, H10⟩ :=
    runSweep_spec iters (sweepLevels L inc) initState s s' st' hrun rfl rfl
      (sweepLevels_nodup L inc hinc) (fun e _ => ⟨rfl, rfl⟩)
  simp only [initState, List.nil_append] at H4 H5
  have hflen : ∀ p ∈ (sweepLevels L inc).zip qss, (levelEntries 0 p.2).length = iters := by
    intro p hp
    obtain ⟨a, b⟩ := p
    rw [levelEntries_length]
    exact H2 b (List.of_mem_zip hp).2
  have hkeys : ((sweepLevels L inc).zip qss).map Prod.fst = sweepLevels L inc :=
    List.map_fst_zip _ _ (le_of_eq H1.symm)
  have hnd : (((sweepLevels L inc).zip qss).map Prod.fst).Nodup := by
    rw [hkeys]
    exact sweepLevels_nodup L inc hinc
  have hz3 : st'.errorCounts.zip (st'.bitscores.zip st'.color) =
      ((sweepLevels L inc).zip qss).flatMap
        fun p => (List.replicate iters p.1).zip (levelEntries 0 p.2) := by
    rw [H4, H5]
    exact zip_flatMap_blocks iters (fun p => levelEntries 0 p.2) _ hflen
  refine ⟨rfl, ?_⟩
  intro e he
  have hemem : e ∈ ((sweepLevels L inc).zip qss).map Prod.fst := by rw [hkeys]; exact he
  obtain ⟨p, hp, hpe⟩ := List.mem_map.mp hemem
  obtain ⟨a, qse⟩ := p
  simp only at hpe
  subst hpe
  have hfiltered :
      (((st'.errorCounts.zip (st'.bitscores.zip st'.color)).filter
        fun x => decide (x.1 = a)).map fun x => x.2) = levelEntries 0 qse := by
    rw [hz3, filter_key_flatMap a iters (fun p => levelEntries 0 p.2) _ hflen,
      filter_key_singleton _ a qse hnd hp]
    rw [List.flatMap_cons, List.flatMap_nil, List.append_nil, List.map_map]
    conv_lhs =>
      rw [show ((fun x : Nat × (ℚ × String) => x.2) ∘ fun y => (a, y)) = id from rfl]
    rw [List.map_id]
  have hmisscount : st'.missCounts a = qse.countP fun q => decide (q = 0) :=
    (H9 (a, qse) hp).1
  constructor
  · rw [hfiltered, hmisscount]
    exact levelEntries_filter_miss qse 0
  · rw [hfiltered, levelEntries_filter_miss qse 0, List.map_map]
    exact chain_gt_range_map _ (0 + 1)

/-- C5: for every visited mismatch level, the match-rate point of that level
is exactly the number of positive-score trials recorded at the level divided
by the iteration count, and this value lies between 0 and 1, assuming the
oracle contract that all returned scores are nonnegative. -/
theorem c5_match_rate (L inc iters : Nat) (hinc : 1 ≤ inc) (hiters : 1 ≤ iters)
    (s s' : List TrialResult) (st' : SamplerState)
    (hrun : runSweep iters (sweepLevels L inc) initState s = some (st', s'))
    (hscores : ∀ t ∈ s, trialNonneg t = true) :
    ∀ p ∈ successSeries L inc iters st'.successCounts,
      p.2 = (st'.successCounts p.1 : ℚ) / (iters : ℚ) ∧
      st'.successCounts p.1 =
        ((st'.errorCounts.zip st'.bitscores).filter
          fun x => decide (0 < x.2) && decide (x.1 = p.1)).length ∧
      0 ≤ p.2 ∧ p.2 ≤ 1 := by
  obtain ⟨qss, H1, H2, H3, H4, H5, H6, H7, H8, H9, H10⟩ :=
    runSweep_spec iters (sweepLevels L inc) initState s s' st' hrun rfl rfl
      (sweepLevels_nodup L inc hinc) (fun e _ => ⟨rfl, rfl⟩)
  simp only [initState, List.zip_nil_left, List.nil_append, List.length_nil] at H4 H5 H6 H7 H8
  have hflen2 : ∀ p ∈ (sweepLevels L inc).zip qss,
      ((levelEntries 0 p.2).map Prod.fst).length = iters := by
    intro p hp
    obtain ⟨a, b⟩ := p
    rw [List.length_map, levelEntries_length]
    exact H2 b (List.of_mem_zip hp).2
  have hkeys : ((sweepLevels L inc).zip qss).map Prod.fst = sweepLevels L inc :=
    List.map_fst_zip _ _ (le_of_eq H1.symm)
  have hnd : (((sweepLevels L inc).zip qss).map Prod.fst).Nodup := by
    rw [hkeys]
    exact sweepLevels_nodup L inc hinc
  have hbs : st'.bitscores = (st'.bitscores.zip st'.color).map Prod.fst :=
    (List.map_fst_zip _ _ (le_of_eq (H6.trans H7.symm))).symm
  have hzip2 : st'.errorCounts.zip st'.bitscores =
      ((sweepLevels L inc).zip qss).flatMap
        fun p => (List.replicate iters p.1).zip ((levelEntries 0 p.2).map Prod.fst) := by
    rw [hbs, H5, H4, List.map_flatMap]
    exact zip_flatMap_blocks iters (fun p => (levelEntries 0 p.2).map Prod.fst) _ hflen2
  intro pt hpt
  obtain ⟨e, he, hpe⟩ := List.mem_map.mp hpt
  subst hpe
  simp only
  have hemem : e ∈ ((sweepLevels L inc).zip qss).map Prod.fst := by rw [hkeys]; exact he
  obtain ⟨p, hp, hpe2⟩ := List.mem_map.mp hemem
  obtain ⟨a, qse⟩ := p
  simp only at hpe2
  subst hpe2
  have hqse : qse ∈ qss := (List.of_mem_zip hp).2
  have hqlen : qse.length = iters := H2 qse hqse
  have hnn : ∀ q ∈ qse, 0 ≤ q := by
    intro q hq
    have hmem : TrialResult.score q ∈ s := H3 qse hqse q hq
    have ht := hscores _ hmem
    simpa [trialNonneg] using ht
  have hsc : st'.successCounts a = qse.countP fun q => decide ¬ q = 0 :=
    (H9 (a, qse) hp).2
  have hcount : st'.successCounts a =
      ((st'.errorCounts.zip st'.bitscores).filter
        fun x => decide (0 < x.2) && decide (x.1 = a)).length := by
    have hsplit : ((st'.errorCounts.zip st'.bitscores).filter
        fun x => decide (0 < x.2) && decide (x.1 = a)) =
        (((st'.errorCounts.zip st'.bitscores).filter
          fun x => decide (x.1 = a)).filter fun x => decide (0 < x.2)) := by
      rw [List.filter_filter]
    rw [hsplit, hzip2,
      filter_key_flatMap a iters (fun p => (levelEntries 0 p.2).map Prod.fst) _ hflen2,
      filter_key_singleton _ a qse hnd hp,
      List.flatMap_cons, List.flatMap_nil, List.append_nil]
    rw [List.filter_map, List.length_map]
    have hcomp1 : ((fun x : Nat × ℚ => decide (0 < x.2)) ∘ fun y => (a, y)) =
        fun v : ℚ => decide (0 < v) := rfl
    rw [hcomp1, List.filter_map, List.length_map]
    have hcomp2 : ((fun v : ℚ => decide (0 < v)) ∘ Prod.fst) =
        fun p : ℚ × String => decide (0 < p.1) := rfl
    rw [hcomp2, levelEntries_filter_pos qse 0 hnn, hsc]
  have hcle : st'.successCounts a ≤ iters := by
    rw [hsc, ← hqlen]
    exact List.countP_le_length _
  refine ⟨trivial, hcount, ?_, ?_⟩
  · exact div_nonneg (Nat.cast_nonneg _) (Nat.cast_nonneg _)
  · rw [div_le_one (by exact_mod_cast Nat.lt_of_lt_of_le Nat.zero_lt_one hiters :
      (0 : ℚ) < (iters : ℚ))]
    exact_mod_cast hcle

/-- C8: the horizontal axis bounds of a cell are 0 to length plus one and the
vertical bounds run from minus (iterations plus one) times the miss scale up
to the maximum recorded value plus five; every recorded value lies strictly
below the upper bound and every stacked miss value lies strictly above the
lower bound. -/
theorem c8_axis_bounds (L inc iters : Nat) (hL : 1 ≤ L) (hinc : 1 ≤ inc)
    (hiters : 1 ≤ iters) (s s' : List TrialResult) (st' : SamplerState)
    (hrun : runSweep iters (sweepLevels L inc) initState s = some (st', s')) :
    xlim L = (0, (L : ℚ) + 1) ∧
    ∃ mx, pyMax st'.bitscores = some mx ∧
      ylim iters st'.bitscores =
        some (-((iters : ℚ) + 1) * zeroBitscoreScale, mx + 5) ∧
      (∀ v ∈ st'.bitscores, v < mx + 5) ∧
      ∀ y ∈ st'.bitscores.zip st'.color, y.2 = missColor →
        -((iters : ℚ) + 1) * zeroBitscoreScale < y.1 := by
  obtain ⟨qss, H1, H2, H3, H4, H5, H6, H7, H8, H9, H10⟩ :=
    runSweep_spec iters (sweepLevels L inc) initState s s' st' hrun rfl rfl
      (sweepLevels_nodup L inc hinc) (fun e _ => ⟨rfl, rfl⟩)
  simp only [initState, List.zip_nil_left, List.nil_append, List.length_nil] at H4 H5 H6 H7 H8
  have hlev0 : 0 ∈ sweepLevels L inc := by
    rw [mem_sweepLevels L inc hinc]
    exact ⟨⟨0, by ring⟩, hL⟩
  have hlevpos : 0 < (sweepLevels L inc).length := List.length_pos_of_mem hlev0
  have hbslen : 0 < st'.bitscores.length := by
    rw [H6]
    have hz : 0 + 0 < (sweepLevels L inc).length * iters := Nat.mul_pos hlevpos hiters
    omega
  have hmiss : ∀ y ∈ st'.bitscores.zip st'.color, y.2 = missColor →
      -((iters : ℚ) + 1) * zeroBitscoreScale < y.1 := by
    intro y hy hmc
    rw [H5] at hy
    obtain ⟨p, hp, hyp⟩ := List.mem_flatMap.mp hy
    obtain ⟨a, b⟩ := p
    obtain ⟨k, hk1, hk2, hkval⟩ := levelEntries_miss_val b 0 y hyp hmc
    have hkiters : k ≤ iters := by
      have hble : b.countP (fun q => decide (q = 0)) ≤ b.length := List.countP_le_length _
      have hblen : b.length = iters := H2 b (List.of_mem_zip hp).2
      omega
    rw [hkval, zeroBitscoreScale]
    have hkq : ((k : Nat) : ℚ) ≤ ((iters : Nat) : ℚ) := by exact_mod_cast hkiters
    linarith
  cases hbs : st'.bitscores with
  | nil => rw [hbs] at hbslen; simp at hbslen
  | cons q0 qrest =>
    rw [hbs] at hmiss
    refine ⟨rfl, qrest.foldl max q0, rfl, rfl, ?_, hmiss⟩
    intro v hv
    have hle : v ≤ qrest.foldl max q0 := pyMax_ge (q0 :: qrest) _ rfl v hv
    linarith

/-- Witness for C6 on the concrete sweep: length 10, increment 5, three
iterations, levels 0 and 5, six outcomes, two match-rate points. -/
theorem c6_sweep_shape_witness :
    sweepLevels 10 5 = [0, 5] ∧
    sampleFinal.1.errorCounts.length = 6 ∧
    (successSeries 10 5 3 sampleFinal.1.successCounts).length = 2 ∧
    ((∀ e, e ∈ sweepLevels 10 5 ↔ (∃ k, e = k * 5) ∧ e < 10) ∧
      sampleFinal.1.errorCounts.length = (sweepLevels 10 5).length * 3 ∧
      sampleFinal.1.bitscores.length = (sweepLevels 10 5).length * 3 ∧
      sampleFinal.1.color.length = (sweepLevels 10 5).length * 3 ∧
      (successSeries 10 5 3 sampleFinal.1.successCounts).length = (sweepLevels 10 5).length ∧
      (successSeries 10 5 3 sampleFinal.1.successCounts).map Prod.fst = sweepLevels 10 5) := by
  refine ⟨by decide, by decide, by decide, ?_⟩
  exact c6_sweep_shape 10 5 3 (by decide) sampleStream sampleFinal.2 sampleFinal.1 rfl

/-- Witness for C10 on the concrete sweep. -/
theorem c10_counters_partition_witness :
    (∀ e ∈ sweepLevels 10 5,
      sampleFinal.1.successCounts e + sampleFinal.1.missCounts e = 3) ∧
    sampleFinal.1.errorCounts.length = sampleFinal.1.bitscores.length ∧
    sampleFinal.1.bitscores.length = sampleFinal.1.color.length :=
  c10_counters_partition 10 5 3 (by decide) sampleStream sampleFinal.2 sampleFinal.1 rfl

/-- Witness for C4 on the concrete sweep. -/
theorem c4_miss_stacking_witness :
    zeroBitscoreScale = 2 ∧
    ∀ e ∈ sweepLevels 10 5,
      ((((sampleFinal.1.errorCounts.zip
          (sampleFinal.1.bitscores.zip sampleFinal.1.color)).filter
          fun x => decide (x.1 = e)).map fun x => x.2).filter
          fun y => decide (y.2 = missColor)) =
        (List.range' 1 (sampleFinal.1.missCounts e)).map
          (fun k => (-((k : Nat) : ℚ) * zeroBitscoreScale, missColor)) ∧
      List.Chain' (fun x y => y < x)
        (((((sampleFinal.1.errorCounts.zip
          (sampleFinal.1.bitscores.zip sampleFinal.1.color)).filter
          fun x => decide (x.1 = e)).map fun x => x.2).filter
          fun y => decide (y.2 = missColor)).map Prod.fst) :=
  c4_miss_stacking 10 5 3 (by decide) sampleStream sampleFinal.2 sampleFinal.1 rfl

/-- Witness for C5 on the concrete sweep, whose scores are all nonnegative,
instantiated at the match-rate point of level 0. -/
theorem c5_match_rate_witness :
    sampleRatePoint.2 =
      (sampleFinal.1.successCounts sampleRatePoint.1 : ℚ) / ((3 : Nat) : ℚ) ∧
    sampleFinal.1.successCounts sampleRatePoint.1 =
      ((sampleFinal.1.errorCounts.zip sampleFinal.1.bitscores).filter
        fun x => decide (0 < x.2) && decide (x.1 = sampleRatePoint.1)).length ∧
    0 ≤ sampleRatePoint.2 ∧ sampleRatePoint.2 ≤ 1 :=
  c5_match_rate 10 5 3 (by decide) (by decide) sampleStream sampleFinal.2 sampleFinal.1
    rfl (by decide) sampleRatePoint (List.mem_cons_self _ _)

/-- Witness for C8 on the concrete sweep. -/
theorem c8_axis_bounds_witness :
    xlim 10 = (0, ((10 : Nat) : ℚ) + 1) ∧
    ∃ mx, pyMax sampleFinal.1.bitscores = some mx ∧
      ylim 3 sampleFinal.1.bitscores =
        some (-(((3 : Nat) : ℚ) + 1) * zeroBitscoreScale, mx + 5) ∧
      (∀ v ∈ sampleFinal.1.bitscores, v < mx + 5) ∧
      ∀ y ∈ sampleFinal.1.bitscores.zip sampleFinal.1.color, y.2 = missColor →
        -(((3 : Nat) : ℚ) + 1) * zeroBitscoreScale < y.1 :=
  c8_axis_bounds 10 5 3 (by decide) (by decide) (by decide) sampleStream
    sampleFinal.2 sampleFinal.1 rfl
